import Mathlib

/-!
Shallow embedding of the OPUS option-pricing engines
(`src/models/black_scholes.py`, `src/binomial.py`, `src/models/monte_carlo.py`).

Real-valued machine arithmetic is modelled by exact rationals; the
transcendental primitives the code calls (`np.exp`, `np.log`, `np.sqrt`,
`scipy.stats.norm.cdf`) are abstracted as a record of function parameters
`Prims`, so every theorem is stated for an arbitrary interpretation of the
primitives and concrete instances are used to evaluate on concrete inputs.
The global NumPy random state consumed by `np.random.randn` is modelled as an
explicit stream of draws that each Monte-Carlo invocation consumes from and
returns the remainder of.
-/

namespace Opus

/-- Interpretation of the numeric primitives used by the Python code:
`exp`, `log`, `sqrt` from NumPy and the standard normal CDF from SciPy. -/
structure Prims where
  exp : ℚ → ℚ
  log : ℚ → ℚ
  sqrt : ℚ → ℚ
  cdf : ℚ → ℚ

/-! ## Analytic engine: `src/models/black_scholes.py` -/

/-- Embeds `black_scholes_call`: guard on degenerate inputs, otherwise the
Black-Scholes-Merton closed form as written in the source. -/
def black_scholes_call (P : Prims) (S K T r sigma : ℚ) : ℚ :=
  if T ≤ 0 ∨ sigma ≤ 0 ∨ S ≤ 0 ∨ K ≤ 0 then 0
  else
    let d1 := (P.log (S / K) + (r + (1/2) * sigma ^ 2) * T) / (sigma * P.sqrt T)
    let d2 := d1 - sigma * P.sqrt T
    S * P.cdf d1 - K * P.exp (-(r * T)) * P.cdf d2

/-- Embeds `black_scholes_put`. -/
def black_scholes_put (P : Prims) (S K T r sigma : ℚ) : ℚ :=
  if T ≤ 0 ∨ sigma ≤ 0 ∨ S ≤ 0 ∨ K ≤ 0 then 0
  else
    let d1 := (P.log (S / K) + (r + (1/2) * sigma ^ 2) * T) / (sigma * P.sqrt T)
    let d2 := d1 - sigma * P.sqrt T
    K * P.exp (-(r * T)) * P.cdf (-d2) - S * P.cdf (-d1)

/-- The call price formula exactly as the spec words it:
d1 = [ln(S/K) + (r + sigma^2/2)T]/(sigma sqrt T), d2 = d1 - sigma sqrt T,
price = S Phi(d1) - K e^(-rT) Phi(d2). -/
def bsCallSpecFormula (P : Prims) (S K T r sigma : ℚ) : ℚ :=
  let d1 := (P.log (S / K) + (r + sigma ^ 2 / 2) * T) / (sigma * P.sqrt T)
  let d2 := d1 - sigma * P.sqrt T
  S * P.cdf d1 - K * P.exp (-(r * T)) * P.cdf d2

/-- The put price formula exactly as the spec words it:
price = K e^(-rT) Phi(-d2) - S Phi(-d1). -/
def bsPutSpecFormula (P : Prims) (S K T r sigma : ℚ) : ℚ :=
  let d1 := (P.log (S / K) + (r + sigma ^ 2 / 2) * T) / (sigma * P.sqrt T)
  let d2 := d1 - sigma * P.sqrt T
  K * P.exp (-(r * T)) * P.cdf (-d2) - S * P.cdf (-d1)

/-! ## Lattice engine: `src/binomial.py`

The backward loop `for i in range(steps-1,-1,-1)` is embedded as
`binomPass steps m st`, the state after the first `m` iterations of the loop
(iteration number `m+1` processes loop index `i = steps-(m+1)`).  Each
iteration shrinks the asset array (`ST = ST[:i+1]/u`), forms the discounted
risk-neutral expectation of adjacent option values, and for American exercise
takes the elementwise max with the intrinsic values of the current asset
array, exactly as the source does. -/

/-- One backward-induction continuation array:
`np.exp(-r*dt) * (p * option_values[1:i+2] + (1-p) * option_values[0:i+1])`. -/
def binomCont (disc p : ℚ) (i : ℕ) (vals : List ℚ) : List ℚ :=
  (List.range (i + 1)).map fun k => disc * (p * vals.getD (k + 1) 0 + (1 - p) * vals.getD k 0)

/-- One iteration of the backward loop of `binomial_call`/`binomial_put`,
parametrized by the intrinsic-value function (`ST - K` for a call,
`K - ST` for a put). -/
def binomStep (u disc p : ℚ) (intrin : ℚ → ℚ) (amer : Bool) (i : ℕ)
    (st : List ℚ × List ℚ) : List ℚ × List ℚ :=
  let ST := (st.1.take (i + 1)).map fun x => x / u
  let cont := binomCont disc p i st.2
  (ST, if amer then List.zipWith max cont (ST.map intrin) else cont)

/-- State of the backward loop after its first `m` iterations. -/
def binomPass (u disc p : ℚ) (intrin : ℚ → ℚ) (amer : Bool) (steps : ℕ) :
    ℕ → List ℚ × List ℚ → List ℚ × List ℚ
  | 0, st => st
  | m + 1, st => binomStep u disc p intrin amer (steps - (m + 1))
      (binomPass u disc p intrin amer steps m st)

/-- The loop state of `binomial_call` after `m` backward iterations:
CRR parameters, terminal asset prices `S*u^j*d^(steps-j)`, terminal call
payoffs, then `m` iterations of the backward loop. -/
def binomialCallState (P : Prims) (S K T r sigma : ℚ) (steps : ℕ)
    (option_type : String) (m : ℕ) : List ℚ × List ℚ :=
  let dt := T / (steps : ℚ)
  let u := P.exp (sigma * P.sqrt dt)
  let d := 1 / u
  let p := (P.exp (r * dt) - d) / (u - d)
  let ST0 := (List.range (steps + 1)).map fun j => S * u ^ j * d ^ (steps - j)
  let vals0 := ST0.map fun x => max (x - K) 0
  binomPass u (P.exp (-(r * dt))) p (fun s => s - K) (option_type == "American") steps m
    (ST0, vals0)

/-- Embeds `binomial_call`: the root entry of the option-value array after the
full backward pass. -/
def binomial_call (P : Prims) (S K T r sigma : ℚ) (steps : ℕ)
    (option_type : String) : ℚ :=
  ((binomialCallState P S K T r sigma steps option_type steps).2).getD 0 0

/-- The loop state of `binomial_put` after `m` backward iterations. -/
def binomialPutState (P : Prims) (S K T r sigma : ℚ) (steps : ℕ)
    (option_type : String) (m : ℕ) : List ℚ × List ℚ :=
  let dt := T / (steps : ℚ)
  let u := P.exp (sigma * P.sqrt dt)
  let d := 1 / u
  let p := (P.exp (r * dt) - d) / (u - d)
  let ST0 := (List.range (steps + 1)).map fun j => S * u ^ j * d ^ (steps - j)
  let vals0 := ST0.map fun x => max (K - x) 0
  binomPass u (P.exp (-(r * dt))) p (fun s => K - s) (option_type == "American") steps m
    (ST0, vals0)

/-- Embeds `binomial_put`. -/
def binomial_put (P : Prims) (S K T r sigma : ℚ) (steps : ℕ)
    (option_type : String) : ℚ :=
  ((binomialPutState P S K T r sigma steps option_type steps).2).getD 0 0

/-- The one-shot discounted risk-neutral binomial sum the claimed refinement
compares against: e^(-rT) * sum over j of C(steps,j) p^j (1-p)^(steps-j)
max(S u^j d^(steps-j) - K, 0). -/
def crrClosedCall (P : Prims) (S K T r sigma : ℚ) (steps : ℕ) : ℚ :=
  let dt := T / (steps : ℚ)
  let u := P.exp (sigma * P.sqrt dt)
  let d := 1 / u
  let p := (P.exp (r * dt) - d) / (u - d)
  P.exp (-(r * T)) * ∑ j in Finset.range (steps + 1),
    (steps.choose j : ℚ) * p ^ j * (1 - p) ^ (steps - j) * max (S * u ^ j * d ^ (steps - j) - K) 0

/-- Closed binomial sum for the put payoff. -/
def crrClosedPut (P : Prims) (S K T r sigma : ℚ) (steps : ℕ) : ℚ :=
  let dt := T / (steps : ℚ)
  let u := P.exp (sigma * P.sqrt dt)
  let d := 1 / u
  let p := (P.exp (r * dt) - d) / (u - d)
  P.exp (-(r * T)) * ∑ j in Finset.range (steps + 1),
    (steps.choose j : ℚ) * p ^ j * (1 - p) ^ (steps - j) * max (K - S * u ^ j * d ^ (steps - j)) 0

/-! ## Simulation engine: `src/models/monte_carlo.py` -/

/-- `np.mean` of a list. -/
def npMean (xs : List ℚ) : ℚ := xs.sum / (xs.length : ℚ)

/-- Embeds `monte_carlo_call`.  The ambient NumPy random state is the explicit
stream `rng`; `np.random.randn(n)` consumes its first `n` draws.  The result
carries the remaining stream, and the unsupported-style branch is the `raise
ValueError` of the source. -/
def monte_carlo_call (P : Prims) (S K T r sigma : ℚ) (simulations steps : ℕ)
    (option_type : String) (rng : List ℚ) : Except String (ℚ × List ℚ) :=
  if option_type = "European" then
    let Z := rng.take simulations
    let ST := Z.map fun z => S * P.exp ((r - (1/2) * sigma ^ 2) * T + sigma * P.sqrt T * z)
    let payoff := ST.map fun x => max (x - K) 0
    .ok (P.exp (-(r * T)) * npMean payoff, rng.drop simulations)
  else if option_type = "Asian" then
    let dt := T / (steps : ℚ)
    let drift := (r - (1/2) * sigma ^ 2) * dt
    let rows := (List.range simulations).map fun i => (rng.drop (i * steps)).take steps
    let avgs := rows.map fun zr =>
      npMean (List.scanl (fun s z => s * P.exp (drift + sigma * P.sqrt dt * z)) S zr)
    let payoff := avgs.map fun a => max (a - K) 0
    .ok (P.exp (-(r * T)) * npMean payoff, rng.drop (simulations * steps))
  else
    .error ("Unsupported option_type: " ++ option_type)

/-- Embeds `monte_carlo_put`. -/
def monte_carlo_put (P : Prims) (S K T r sigma : ℚ) (simulations steps : ℕ)
    (option_type : String) (rng : List ℚ) : Except String (ℚ × List ℚ) :=
  if option_type = "European" then
    let Z := rng.take simulations
    let ST := Z.map fun z => S * P.exp ((r - (1/2) * sigma ^ 2) * T + sigma * P.sqrt T * z)
    let payoff := ST.map fun x => max (K - x) 0
    .ok (P.exp (-(r * T)) * npMean payoff, rng.drop simulations)
  else if option_type = "Asian" then
    let dt := T / (steps : ℚ)
    let drift := (r - (1/2) * sigma ^ 2) * dt
    let rows := (List.range simulations).map fun i => (rng.drop (i * steps)).take steps
    let avgs := rows.map fun zr =>
      npMean (List.scanl (fun s z => s * P.exp (drift + sigma * P.sqrt dt * z)) S zr)
    let payoff := avgs.map fun a => max (K - a) 0
    .ok (P.exp (-(r * T)) * npMean payoff, rng.drop (simulations * steps))
  else
    .error ("Unsupported option_type: " ++ option_type)

/-- The European Monte-Carlo call estimate exactly as the spec words it, as an
indexed sum over the draw vector `Z`:
e^(-rT) times the mean over i of max(S_T,i - K, 0) with
S_T,i = S exp[(r - sigma^2/2)T + sigma sqrt T Z_i]. -/
def mcEuroCallSpec (P : Prims) (S K T r sigma : ℚ) (Z : List ℚ) : ℚ :=
  P.exp (-(r * T)) *
    ((∑ i in Finset.range Z.length,
      max (S * P.exp ((r - sigma ^ 2 / 2) * T + sigma * P.sqrt T * Z.getD i 0) - K) 0) /
      (Z.length : ℚ))

/-- The European Monte-Carlo put estimate as the spec words it. -/
def mcEuroPutSpec (P : Prims) (S K T r sigma : ℚ) (Z : List ℚ) : ℚ :=
  P.exp (-(r * T)) *
    ((∑ i in Finset.range Z.length,
      max (K - S * P.exp ((r - sigma ^ 2 / 2) * T + sigma * P.sqrt T * Z.getD i 0)) 0) /
      (Z.length : ℚ))

/-! ## Concrete primitive interpretations used for evaluations -/

/-- Trivial interpretation of the primitives, used to instantiate universally
quantified theorems at a concrete input. -/
def P0 : Prims where
  exp := fun _ => 1
  log := fun _ => 0
  sqrt := fun _ => 0
  cdf := fun _ => 1/2

/-- Rational approximation of the real exponential at the three points the
binomial counterexamples evaluate it (exp 0.05, exp (-3), exp 3), exact at 0. -/
def expApprox : ℚ → ℚ := fun q =>
  if q = 1/20 then 1051271/1000000
  else if q = -3 then 497871/10000000
  else if q = 3 then 200855369/10000000
  else 1

/-- Primitive interpretation approximating the real functions at the points
used by the binomial counterexamples (`sqrt` is evaluated only at 1). -/
def Papprox : Prims where
  exp := expApprox
  log := fun _ => 0
  sqrt := fun q => q
  cdf := fun _ => 0

/-- Primitive interpretation for the Monte-Carlo RNG counterexample:
exp is interpreted as a function with visibly different values at the two
consumed draws (exact at 0: exp 0 = 1). -/
def P9 : Prims where
  exp := fun q => q + 1
  log := fun _ => 0
  sqrt := fun q => q
  cdf := fun _ => 0

/-! ## Helper lemmas -/

theorem binomPass_zero (u disc p : ℚ) (intrin : ℚ → ℚ) (amer : Bool) (steps : ℕ)
    (st : List ℚ × List ℚ) : binomPass u disc p intrin amer steps 0 st = st := rfl

theorem binomPass_succ (u disc p : ℚ) (intrin : ℚ → ℚ) (amer : Bool) (steps m : ℕ)
    (st : List ℚ × List ℚ) :
    binomPass u disc p intrin amer steps (m + 1) st =
      binomStep u disc p intrin amer (steps - (m + 1))
        (binomPass u disc p intrin amer steps m st) := rfl

theorem binomPass_one (u disc p : ℚ) (intrin : ℚ → ℚ) (amer : Bool) (steps : ℕ)
    (st : List ℚ × List ℚ) :
    binomPass u disc p intrin amer steps 1 st =
      binomStep u disc p intrin amer (steps - 1) st := rfl

theorem binomPass_two (u disc p : ℚ) (intrin : ℚ → ℚ) (amer : Bool) (steps : ℕ)
    (st : List ℚ × List ℚ) :
    binomPass u disc p intrin amer steps 2 st =
      binomStep u disc p intrin amer (steps - 2)
        (binomStep u disc p intrin amer (steps - 1) st) := rfl

theorem range_one : List.range 1 = [0] := rfl

theorem range_two : List.range 2 = [0, 1] := rfl

theorem range_three : List.range 3 = [0, 1, 2] := rfl

theorem euroNeAmer : ¬ (("European" : String) = "American") := by decide

theorem bermNeAmer : ¬ (("Bermudan" : String) = "American") := by decide

/-- Shared algebraic core of put-call parity: only the symmetry
`c x + c (-x) = 1` of the normal CDF is used. -/
theorem parity_core (c : ℚ → ℚ) (hc : ∀ x, c x + c (-x) = 1) (S K E a b : ℚ) :
    S * c a - K * E * c b - (K * E * c (-b) - S * c (-a)) = S - K * E := by
  linear_combination S * hc a - K * E * hc b

/-! ## C2, C3, C4: the analytic engine -/

/-- C2: for positive S, K, T, sigma and any rate, `black_scholes_call` equals
S Phi(d1) - K e^(-rT) Phi(d2) and `black_scholes_put` equals
K e^(-rT) Phi(-d2) - S Phi(-d1), with d1, d2 exactly as the spec defines them. -/
theorem black_scholes_matches_spec_formula (P : Prims) (S K T r sigma : ℚ)
    (hS : 0 < S) (hK : 0 < K) (hT : 0 < T) (hsig : 0 < sigma) :
    black_scholes_call P S K T r sigma = bsCallSpecFormula P S K T r sigma ∧
    black_scholes_put P S K T r sigma = bsPutSpecFormula P S K T r sigma := by
  have hg : ¬ (T ≤ 0 ∨ sigma ≤ 0 ∨ S ≤ 0 ∨ K ≤ 0) := by
    push_neg
    exact ⟨hT, hsig, hS, hK⟩
  have harg : (1 : ℚ)/2 * sigma ^ 2 = sigma ^ 2 / 2 := by ring
  constructor
  · simp only [black_scholes_call, bsCallSpecFormula, if_neg hg, harg]
  · simp only [black_scholes_put, bsPutSpecFormula, if_neg hg, harg]

/-- Witness for C2 at a concrete valid input. -/
theorem black_scholes_matches_spec_formula_witness :
    black_scholes_call P0 100 90 1 (1/50) (1/5) = bsCallSpecFormula P0 100 90 1 (1/50) (1/5) ∧
    black_scholes_put P0 100 90 1 (1/50) (1/5) = bsPutSpecFormula P0 100 90 1 (1/50) (1/5) :=
  black_scholes_matches_spec_formula P0 100 90 1 (1/50) (1/5)
    (by norm_num) (by norm_num) (by norm_num) (by norm_num)

/-- C3: exact put-call parity of the analytic engine, for any interpretation
of the primitives whose normal CDF satisfies Phi(x) + Phi(-x) = 1 (a property
of the true standard normal CDF). -/
theorem black_scholes_put_call_parity (P : Prims) (S K T r sigma : ℚ)
    (hcdf : ∀ x, P.cdf x + P.cdf (-x) = 1)
    (hS : 0 < S) (hK : 0 < K) (hT : 0 < T) (hsig : 0 < sigma) :
    black_scholes_call P S K T r sigma - black_scholes_put P S K T r sigma =
      S - K * P.exp (-(r * T)) := by
  have hg : ¬ (T ≤ 0 ∨ sigma ≤ 0 ∨ S ≤ 0 ∨ K ≤ 0) := by
    push_neg
    exact ⟨hT, hsig, hS, hK⟩
  simp only [black_scholes_call, black_scholes_put, if_neg hg]
  exact parity_core P.cdf hcdf S K _ _ _

/-- Witness for C3: the CDF-symmetry hypothesis holds for the constant 1/2
interpretation, and parity follows at a concrete input. -/
theorem black_scholes_put_call_parity_witness :
    black_scholes_call P0 100 100 1 (1/50) (1/5) - black_scholes_put P0 100 100 1 (1/50) (1/5) =
      100 - 100 * P0.exp (-((1/50) * 1)) :=
  black_scholes_put_call_parity P0 100 100 1 (1/50) (1/5)
    (fun x => by norm_num [P0]) (by norm_num) (by norm_num) (by norm_num) (by norm_num)

/-- C4: on any degenerate input (T, sigma, S or K nonpositive) both analytic
prices are exactly 0; the embedding is a total function, so no error can be
raised on this path. -/
theorem black_scholes_degenerate_guard (P : Prims) (S K T r sigma : ℚ)
    (h : T ≤ 0 ∨ sigma ≤ 0 ∨ S ≤ 0 ∨ K ≤ 0) :
    black_scholes_call P S K T r sigma = 0 ∧ black_scholes_put P S K T r sigma = 0 := by
  constructor
  · simp only [black_scholes_call, if_pos h]
  · simp only [black_scholes_put, if_pos h]

/-- Witness for C4 at T = 0. -/
theorem black_scholes_degenerate_guard_witness :
    black_scholes_call P0 100 100 0 (1/50) (1/5) = 0 ∧
    black_scholes_put P0 100 100 0 (1/50) (1/5) = 0 :=
  black_scholes_degenerate_guard P0 100 100 0 (1/50) (1/5) (Or.inl le_rfl)

/-! ## C5, C6: the simulation engine -/

theorem sum_map_eq_range_sum (f : ℚ → ℚ) (Z : List ℚ) :
    (Z.map f).sum = ∑ i in Finset.range Z.length, f (Z.getD i 0) := by
  induction Z with
  | nil => simp
  | cons z Z ih =>
      rw [List.map_cons, List.sum_cons, List.length_cons,
        Finset.sum_range_succ' (fun i => f ((z :: Z).getD i 0)) Z.length]
      simp only [List.getD_cons_succ, List.getD_cons_zero, ih]
      exact add_comm _ _

/-- C5: with the standard-normal draw vector Z made explicit (the prefix of
the RNG stream that `np.random.randn(simulations)` consumes), the European
branch of `monte_carlo_call` (resp. `monte_carlo_put`) returns exactly
e^(-rT) times the mean of the terminal payoffs max(S_T,i - K, 0)
(resp. max(K - S_T,i, 0)) with S_T,i = S exp[(r - sigma^2/2)T + sigma sqrt T Z_i]. -/
theorem monte_carlo_european_formula (P : Prims) (S K T r sigma : ℚ)
    (simulations steps : ℕ) (rng : List ℚ) :
    monte_carlo_call P S K T r sigma simulations steps "European" rng =
      Except.ok (mcEuroCallSpec P S K T r sigma (rng.take simulations),
        rng.drop simulations) ∧
    monte_carlo_put P S K T r sigma simulations steps "European" rng =
      Except.ok (mcEuroPutSpec P S K T r sigma (rng.take simulations),
        rng.drop simulations) := by
  have harg : ∀ z : ℚ, (r - (1/2) * sigma ^ 2) * T + sigma * P.sqrt T * z =
      (r - sigma ^ 2 / 2) * T + sigma * P.sqrt T * z := fun z => by ring
  constructor
  · simp only [monte_carlo_call, mcEuroCallSpec, npMean]
    rw [List.map_map, sum_map_eq_range_sum]
    simp only [List.length_map, List.length_take, Function.comp, harg, if_true,
      eq_self_iff_true]
  · simp only [monte_carlo_put, mcEuroPutSpec, npMean]
    rw [List.map_map, sum_map_eq_range_sum]
    simp only [List.length_map, List.length_take, Function.comp, harg, if_true,
      eq_self_iff_true]

/-- C6: the Monte-Carlo functions fail with an error naming the supplied
option_type exactly when it is neither "European" nor "Asian"; in particular
"Bermudan" fails with an error naming "Bermudan". -/
theorem monte_carlo_invalid_style_error (P : Prims) (S K T r sigma : ℚ)
    (simulations steps : ℕ) (t : String) (rng : List ℚ) :
    ((monte_carlo_call P S K T r sigma simulations steps t rng =
        Except.error ("Unsupported option_type: " ++ t)) ↔
      (t ≠ "European" ∧ t ≠ "Asian")) ∧
    ((monte_carlo_put P S K T r sigma simulations steps t rng =
        Except.error ("Unsupported option_type: " ++ t)) ↔
      (t ≠ "European" ∧ t ≠ "Asian")) ∧
    monte_carlo_call P S K T r sigma simulations steps "Bermudan" rng =
      Except.error "Unsupported option_type: Bermudan" ∧
    monte_carlo_put P S K T r sigma simulations steps "Bermudan" rng =
      Except.error "Unsupported option_type: Bermudan" := by
  refine ⟨?_, ?_, ?_, ?_⟩
  · by_cases h1 : t = "European"
    · subst h1
      simp [monte_carlo_call]
    · by_cases h2 : t = "Asian"
      · subst h2
        simp [monte_carlo_call]
      · simp [monte_carlo_call, h1, h2]
  · by_cases h1 : t = "European"
    · subst h1
      simp [monte_carlo_put]
    · by_cases h2 : t = "Asian"
      · subst h2
        simp [monte_carlo_put]
      · simp [monte_carlo_put, h1, h2]
  · rw [monte_carlo_call, if_neg (by decide), if_neg (by decide)]
    rfl
  · rw [monte_carlo_put, if_neg (by decide), if_neg (by decide)]
    rfl

/-! ## C7: the lattice engine silently accepts unsupported exercise styles -/

/-- C7 counterexample: `binomial_call` with option_type "Bermudan" does not
fail: it returns the same ordinary price as "European" (the source has no
`raise` branch; option_type only selects the American comparison). -/
theorem binomial_bermudan_silently_priced :
    binomial_call Papprox 100 100 2 0 (1/20) 2 "Bermudan" =
      binomial_call Papprox 100 100 2 0 (1/20) 2 "European" ∧
    binomial_put Papprox 100 100 2 0 (1/20) 2 "Bermudan" =
      binomial_put Papprox 100 100 2 0 (1/20) 2 "European" := by
  constructor <;> rfl

/-- C7 amended: the lattice engine never fails on an unsupported exercise
style; every option_type other than "American" (including unsupported values
such as "Bermudan") is silently priced as European. -/
theorem binomial_non_american_treated_as_european (P : Prims) (S K T r sigma : ℚ)
    (steps : ℕ) (t : String) (ht : t ≠ "American") :
    binomial_call P S K T r sigma steps t = binomial_call P S K T r sigma steps "European" ∧
    binomial_put P S K T r sigma steps t = binomial_put P S K T r sigma steps "European" := by
  have hb : (t == "American") = false := beq_eq_false_iff_ne.mpr ht
  have hb2 : (("European" : String) == "American") = false := by decide
  constructor
  · simp only [binomial_call, binomialCallState, hb, hb2]
  · simp only [binomial_put, binomialPutState, hb, hb2]

/-- Witness for the C7 amended theorem at option_type "Bermudan". -/
theorem binomial_non_american_treated_as_european_witness :
    binomial_call P0 100 100 1 0 (1/5) 3 "Bermudan" =
      binomial_call P0 100 100 1 0 (1/5) 3 "European" ∧
    binomial_put P0 100 100 1 0 (1/5) 3 "Bermudan" =
      binomial_put P0 100 100 1 0 (1/5) 3 "European" :=
  binomial_non_american_treated_as_european P0 100 100 1 0 (1/5) 3 "Bermudan" (by decide)

/-! ## C9: Monte-Carlo prices depend on the ambient RNG state -/

/-- C9 counterexample: two invocations of `monte_carlo_call` with identical
explicit arguments, the second consuming the random stream left by the first
(exactly what two successive calls of the Python function do to the global
NumPy state), return different prices (0 versus 1). -/
theorem monte_carlo_rng_state_dependence :
    monte_carlo_call P9 1 0 1 0 2 1 1 "European" [0, 1] = Except.ok (0, [1]) ∧
    monte_carlo_call P9 1 0 1 0 2 1 1 "European" [1] = Except.ok (1, []) ∧
    (0 : ℚ) ≠ 1 := by
  refine ⟨?_, ?_, by norm_num⟩ <;> norm_num [monte_carlo_call, P9, npMean]

/-- C9 amended: the analytic and lattice engines are pure functions of their
explicit arguments (they are embedded as plain functions), while each
Monte-Carlo result is determined by the explicit arguments together with the
draws consumed from the ambient RNG stream.  This holds for every
option_type: the European branch consumes at most `simulations` draws, the
Asian branch at most `simulations * steps`, and the error branch consumes
none, so two invocations whose streams agree on the first
max(simulations, simulations * steps) draws return the same price. -/
theorem monte_carlo_determined_by_consumed_draws (P : Prims) (S K T r sigma : ℚ)
    (simulations steps : ℕ) (option_type : String) (rng1 rng2 : List ℚ)
    (h : rng1.take (max simulations (simulations * steps)) =
         rng2.take (max simulations (simulations * steps))) :
    (monte_carlo_call P S K T r sigma simulations steps option_type rng1).map Prod.fst =
      (monte_carlo_call P S K T r sigma simulations steps option_type rng2).map Prod.fst ∧
    (monte_carlo_put P S K T r sigma simulations steps option_type rng1).map Prod.fst =
      (monte_carlo_put P S K T r sigma simulations steps option_type rng2).map Prod.fst := by
  have htake : rng1.take simulations = rng2.take simulations := by
    have e1 := List.take_take simulations (max simulations (simulations * steps)) rng1
    have e2 := List.take_take simulations (max simulations (simulations * steps)) rng2
    rw [min_eq_left (le_max_left _ _)] at e1 e2
    rw [← e1, ← e2, h]
  have hseg : ∀ i, i < simulations →
      (rng1.drop (i * steps)).take steps = (rng2.drop (i * steps)).take steps := by
    intro i hi
    have hb : i * steps + steps ≤ simulations * steps := by
      calc i * steps + steps = (i + 1) * steps := by ring
        _ ≤ simulations * steps := Nat.mul_le_mul_right steps hi
    have hM : i * steps + steps ≤ max simulations (simulations * steps) :=
      le_trans hb (le_max_right _ _)
    have d1 := List.drop_take (i * steps + steps) (i * steps) rng1
    have d2 := List.drop_take (i * steps + steps) (i * steps) rng2
    rw [show i * steps + steps - i * steps = steps by omega] at d1 d2
    have t1 := List.take_take (i * steps + steps) (max simulations (simulations * steps)) rng1
    have t2 := List.take_take (i * steps + steps) (max simulations (simulations * steps)) rng2
    rw [min_eq_left hM] at t1 t2
    have hpre : rng1.take (i * steps + steps) = rng2.take (i * steps + steps) := by
      rw [← t1, ← t2, h]
    rw [← d1, ← d2, hpre]
  have hrows : (List.range simulations).map (fun i => (rng1.drop (i * steps)).take steps) =
      (List.range simulations).map (fun i => (rng2.drop (i * steps)).take steps) :=
    List.map_congr_left fun i hi => hseg i (List.mem_range.mp hi)
  constructor
  · by_cases hE : option_type = "European"
    · subst hE
      simp only [monte_carlo_call, eq_self_iff_true, if_true, Except.map, htake]
    · by_cases hA : option_type = "Asian"
      · subst hA
        simp only [monte_carlo_call, if_neg (by decide : ¬ (("Asian" : String) = "European")),
          eq_self_iff_true, if_true, Except.map, hrows]
      · simp only [monte_carlo_call, if_neg hE, if_neg hA, Except.map]
  · by_cases hE : option_type = "European"
    · subst hE
      simp only [monte_carlo_put, eq_self_iff_true, if_true, Except.map, htake]
    · by_cases hA : option_type = "Asian"
      · subst hA
        simp only [monte_carlo_put, if_neg (by decide : ¬ (("Asian" : String) = "European")),
          eq_self_iff_true, if_true, Except.map, hrows]
      · simp only [monte_carlo_put, if_neg hE, if_neg hA, Except.map]

/-- Witness for the C9 amended theorem: two streams that agree on the
consumed prefix, exercised on the Asian branch. -/
theorem monte_carlo_determined_by_consumed_draws_witness :
    (monte_carlo_call P0 100 100 1 0 (1/5) 1 1 "Asian" [5]).map Prod.fst =
      (monte_carlo_call P0 100 100 1 0 (1/5) 1 1 "Asian" [5, 7]).map Prod.fst ∧
    (monte_carlo_put P0 100 100 1 0 (1/5) 1 1 "Asian" [5]).map Prod.fst =
      (monte_carlo_put P0 100 100 1 0 (1/5) 1 1 "Asian" [5, 7]).map Prod.fst :=
  monte_carlo_determined_by_consumed_draws P0 100 100 1 0 (1/5) 1 1 "Asian" [5] [5, 7] rfl

/-! ## C1: the shrinking asset-price array does not hold the lattice node
prices

At backward step i the array entry k of the code holds S u^k d^(steps-k) divided
by u^(steps-i) (one division by u per completed iteration), which is
S u^(2k+i-2 steps), not the lattice node price S u^k d^(i-k) = S u^(2k-i);
the American early-exercise comparison therefore uses wrong intrinsic
values.  Evaluated at S=K=100, T=2, r=0, sigma=1/20, steps=2 with exp
interpreted as a rational approximation of the real exponential (u =
1.051271, d = 1/u): after one iteration (backward step i=1) entry k=1 holds
S*d, not the node price S*u. -/

/-- C1: at backward step i=1, entry k=1 of the shrinking asset array equals
S*d (what the division by u produces) and differs from the lattice node
price S*u^1*d^0 claimed by the spec. -/
theorem binomial_shrinking_asset_array_misprices_nodes :
    (binomialCallState Papprox 100 100 2 0 (1/20) 2 "American" 1).1.getD 1 0 =
      100 * (1000000/1051271 : ℚ) ∧
    ¬ ((binomialCallState Papprox 100 100 2 0 (1/20) 2 "American" 1).1.getD 1 0 =
      100 * Papprox.exp ((1/20) * Papprox.sqrt (2 / (2:ℚ))) ^ 1 *
        (1 / Papprox.exp ((1/20) * Papprox.sqrt (2 / (2:ℚ)))) ^ (1 - 1 : ℕ)) := by
  constructor <;>
    norm_num [binomialCallState, binomPass_one, binomStep, binomCont, Papprox, expApprox,
      range_three, range_two]

/-! ## C8: American is not always at least European on this code -/

/-- C8 counterexample: at S=K=100, T=2, sigma=1/20, steps=2 and rate r=-3
(where the risk-neutral up-probability p = (e^(r dt)-d)/(u-d) is negative),
the American call price is strictly below the European call price for the
same parameters.  exp is interpreted as a rational approximation of the real
exponential at the three points used (exp 0.05, exp(-3), exp 3). -/
theorem binomial_american_lt_european_example :
    binomial_call Papprox 100 100 2 (-3) (1/20) 2 "American" <
      binomial_call Papprox 100 100 2 (-3) (1/20) 2 "European" := by
  norm_num [binomial_call, binomialCallState, binomPass_two, binomStep, binomCont,
    Papprox, expApprox, range_three, range_two, range_one, euroNeAmer]

/-! ## Indexed access lemmas for the backward pass -/

theorem getD_range_map (g : ℕ → ℚ) (n k : ℕ) (hk : k < n) :
    ((List.range n).map g).getD k 0 = g k := by
  rw [List.getD_eq_getElem _ 0 (by simpa using hk), List.getElem_map]
  exact congrArg g (List.getElem_range k _)

theorem getD_zipWith_max (xs ys : List ℚ) (k : ℕ) (h1 : k < xs.length) (h2 : k < ys.length) :
    (List.zipWith max xs ys).getD k 0 = max (xs.getD k 0) (ys.getD k 0) := by
  rw [List.getD_eq_getElem _ 0 (by simp [List.length_zipWith]; omega), List.getElem_zipWith,
    List.getD_eq_getElem _ 0 (by simpa), List.getD_eq_getElem _ 0 (by simpa)]

theorem binomCont_length (disc p : ℚ) (i : ℕ) (vals : List ℚ) :
    (binomCont disc p i vals).length = i + 1 := by
  simp [binomCont]

theorem binomCont_getD (disc p : ℚ) (i : ℕ) (vals : List ℚ) (k : ℕ) (hk : k < i + 1) :
    (binomCont disc p i vals).getD k 0 =
      disc * (p * vals.getD (k + 1) 0 + (1 - p) * vals.getD k 0) := by
  unfold binomCont
  exact getD_range_map _ _ _ hk

/-! ## C8 amended: elementwise dominance of the American backward pass -/

/-- Along the backward pass, provided the discount factor is nonnegative and
the risk-neutral probability lies in [0,1], the American option-value array
dominates the European one entrywise (the asset arrays coincide, and taking
the max with intrinsic values can only raise the values being propagated
through nonnegative weights). -/
theorem binomPass_euro_le_amer (u disc p : ℚ) (intrin : ℚ → ℚ)
    (hdisc : 0 ≤ disc) (hp0 : 0 ≤ p) (hp1 : p ≤ 1) (steps : ℕ)
    (st : List ℚ × List ℚ) (hl1 : st.1.length = steps + 1) (hl2 : st.2.length = steps + 1) :
    ∀ m, m ≤ steps →
      (binomPass u disc p intrin false steps m st).1 =
        (binomPass u disc p intrin true steps m st).1 ∧
      ((binomPass u disc p intrin false steps m st).1).length = steps + 1 - m ∧
      ((binomPass u disc p intrin false steps m st).2).length = steps + 1 - m ∧
      ((binomPass u disc p intrin true steps m st).2).length = steps + 1 - m ∧
      ∀ k, ((binomPass u disc p intrin false steps m st).2).getD k 0 ≤
           ((binomPass u disc p intrin true steps m st).2).getD k 0 := by
  intro m
  induction m with
  | zero =>
      intro _
      refine ⟨rfl, by simpa using hl1, by simpa using hl2, by simpa using hl2, fun k => le_rfl⟩
  | succ n ih =>
      intro hm
      obtain ⟨hfst, hlf, hlE, hlA, hle⟩ := ih (Nat.le_of_succ_le hm)
      rw [binomPass_succ, binomPass_succ]
      set E := binomPass u disc p intrin false steps n st with hE
      set A := binomPass u disc p intrin true steps n st with hA
      set i := steps - (n + 1) with hi
      have hi1 : i + 1 = steps - n := by omega
      have hstE : (binomStep u disc p intrin false i E).1 = (E.1.take (i + 1)).map fun x => x / u := by
        simp [binomStep]
      have hstA : (binomStep u disc p intrin true i A).1 = (A.1.take (i + 1)).map fun x => x / u := by
        simp [binomStep]
      have hfst' : (binomStep u disc p intrin false i E).1 = (binomStep u disc p intrin true i A).1 := by
        rw [hstE, hstA, hfst]
      have hlenST : ((A.1.take (i + 1)).map fun x : ℚ => x / u).length = i + 1 := by
        simp only [List.length_map, List.length_take]
        rw [← hfst, hlf]
        omega
      have hsndE : (binomStep u disc p intrin false i E).2 = binomCont disc p i E.2 := by
        simp [binomStep]
      have hsndA : (binomStep u disc p intrin true i A).2 =
          List.zipWith max (binomCont disc p i A.2) (((A.1.take (i + 1)).map fun x => x / u).map intrin) := by
        simp [binomStep]
      have hlA' : ((binomStep u disc p intrin true i A).2).length = i + 1 := by
        rw [hsndA]
        simp only [List.length_zipWith, binomCont_length, List.length_map, List.length_take]
        rw [← hfst, hlf]
        omega
      refine ⟨hfst', ?_, ?_, ?_, ?_⟩
      · rw [hstE, List.length_map, List.length_take, hlf]
        omega
      · rw [hsndE, binomCont_length]
        omega
      · rw [hlA']
        omega
      · intro k
        by_cases hk : k < i + 1
        · rw [hsndE, hsndA, binomCont_getD _ _ _ _ _ hk,
            getD_zipWith_max _ _ _ (by rw [binomCont_length]; exact hk)
              (by rw [List.length_map, hlenST]; exact hk),
            binomCont_getD _ _ _ _ _ hk]
          have hc : disc * (p * E.2.getD (k + 1) 0 + (1 - p) * E.2.getD k 0) ≤
              disc * (p * A.2.getD (k + 1) 0 + (1 - p) * A.2.getD k 0) := by
            have m1 := mul_le_mul_of_nonneg_left (hle (k + 1)) hp0
            have m2 := mul_le_mul_of_nonneg_left (hle k) (by linarith : (0:ℚ) ≤ 1 - p)
            exact mul_le_mul_of_nonneg_left (add_le_add m1 m2) hdisc
          exact le_trans hc (le_max_left _ _)
        · rw [List.getD_eq_default _ _ (by rw [hsndE, binomCont_length]; omega),
            List.getD_eq_default _ _ (by rw [hlA']; omega)]

/-- C8 amended: American ≥ European for identical parameters whenever the
discount factor e^(-r dt) is nonnegative and the risk-neutral up-probability
p = (e^(r dt) - d)/(u - d) lies in [0, 1] (which the unrestricted
"any real r" of the original claim does not guarantee). -/
theorem binomial_american_ge_european_of_unit_prob (P : Prims) (S K T r sigma : ℚ)
    (steps : ℕ) (hS : 0 < S) (hK : 0 < K) (hT : 0 < T) (hsig : 0 < sigma) (hsteps : 1 ≤ steps)
    (hdisc : 0 ≤ P.exp (-(r * (T / (steps : ℚ)))))
    (hp0 : 0 ≤ (P.exp (r * (T / (steps : ℚ))) - 1 / P.exp (sigma * P.sqrt (T / (steps : ℚ)))) /
      (P.exp (sigma * P.sqrt (T / (steps : ℚ))) - 1 / P.exp (sigma * P.sqrt (T / (steps : ℚ)))))
    (hp1 : (P.exp (r * (T / (steps : ℚ))) - 1 / P.exp (sigma * P.sqrt (T / (steps : ℚ)))) /
      (P.exp (sigma * P.sqrt (T / (steps : ℚ))) - 1 / P.exp (sigma * P.sqrt (T / (steps : ℚ)))) ≤ 1) :
    binomial_call P S K T r sigma steps "European" ≤
      binomial_call P S K T r sigma steps "American" ∧
    binomial_put P S K T r sigma steps "European" ≤
      binomial_put P S K T r sigma steps "American" := by
  have hbE : (("European" : String) == "American") = false := by decide
  have hbA : (("American" : String) == "American") = true := by decide
  constructor
  · simp only [binomial_call, binomialCallState, hbE, hbA]
    exact (binomPass_euro_le_amer _ _ _ _ hdisc hp0 hp1 steps _
      (by simp) (by simp) steps le_rfl).2.2.2.2 0
  · simp only [binomial_put, binomialPutState, hbE, hbA]
    exact (binomPass_euro_le_amer _ _ _ _ hdisc hp0 hp1 steps _
      (by simp) (by simp) steps le_rfl).2.2.2.2 0

/-- Witness for the C8 amended theorem: with the constant interpretation
exp = 1 the probability expression evaluates to 0 and the hypotheses hold. -/
theorem binomial_american_ge_european_of_unit_prob_witness :
    binomial_call P0 100 100 1 0 (1/5) 2 "European" ≤
      binomial_call P0 100 100 1 0 (1/5) 2 "American" ∧
    binomial_put P0 100 100 1 0 (1/5) 2 "European" ≤
      binomial_put P0 100 100 1 0 (1/5) 2 "American" :=
  binomial_american_ge_european_of_unit_prob P0 100 100 1 0 (1/5) 2
    (by norm_num) (by norm_num) (by norm_num) (by norm_num) (by norm_num)
    (by norm_num [P0]) (by norm_num [P0]) (by norm_num [P0])

/-! ## C10: the non-American backward pass equals the closed binomial sum -/

/-- Pascal-recurrence step for binomial-weighted sums: combining two adjacent
binomially weighted sums with weights p and q produces the next-order
binomially weighted sum. -/
theorem binom_step_sum (m : ℕ) (p q : ℚ) (g : ℕ → ℚ) :
    p * (∑ j in Finset.range (m + 1), (m.choose j : ℚ) * p ^ j * q ^ (m - j) * g (j + 1)) +
      q * (∑ j in Finset.range (m + 1), (m.choose j : ℚ) * p ^ j * q ^ (m - j) * g j) =
    ∑ t in Finset.range (m + 2), ((m + 1).choose t : ℚ) * p ^ t * q ^ (m + 1 - t) * g t := by
  have hA : p * (∑ j in Finset.range (m + 1), (m.choose j : ℚ) * p ^ j * q ^ (m - j) * g (j + 1))
      = ∑ j in Finset.range (m + 1), (m.choose j : ℚ) * p ^ (j + 1) * q ^ (m - j) * g (j + 1) := by
    rw [Finset.mul_sum]
    exact Finset.sum_congr rfl fun j _ => by ring
  have hB : q * (∑ j in Finset.range (m + 1), (m.choose j : ℚ) * p ^ j * q ^ (m - j) * g j)
      = ∑ j in Finset.range (m + 1), (m.choose j : ℚ) * p ^ j * q ^ (m + 1 - j) * g j := by
    rw [Finset.mul_sum]
    refine Finset.sum_congr rfl fun j hj => ?_
    have hj' : j ≤ m := Nat.lt_succ_iff.mp (Finset.mem_range.mp hj)
    rw [show m + 1 - j = (m - j) + 1 by omega, pow_succ]
    ring
  rw [hA, hB,
    Finset.sum_range_succ' (fun t => ((m + 1).choose t : ℚ) * p ^ t * q ^ (m + 1 - t) * g t) (m + 1)]
  have hsplit : ∀ j ∈ Finset.range (m + 1),
      ((m + 1).choose (j + 1) : ℚ) * p ^ (j + 1) * q ^ (m + 1 - (j + 1)) * g (j + 1)
        = (m.choose j : ℚ) * p ^ (j + 1) * q ^ (m - j) * g (j + 1)
          + (m.choose (j + 1) : ℚ) * p ^ (j + 1) * q ^ (m - j) * g (j + 1) := by
    intro j _
    rw [show m + 1 - (j + 1) = m - j by omega, Nat.choose_succ_succ]
    push_cast
    ring
  rw [Finset.sum_congr rfl hsplit, Finset.sum_add_distrib]
  have hB2 : ∑ j in Finset.range (m + 1), (m.choose j : ℚ) * p ^ j * q ^ (m + 1 - j) * g j
      = (∑ j in Finset.range (m + 1), (m.choose (j + 1) : ℚ) * p ^ (j + 1) * q ^ (m - j) * g (j + 1))
        + ((m + 1).choose 0 : ℚ) * p ^ 0 * q ^ (m + 1 - 0) * g 0 := by
    rw [Finset.sum_range_succ' (fun j => (m.choose j : ℚ) * p ^ j * q ^ (m + 1 - j) * g j) m,
      Finset.sum_range_succ
        (fun j => (m.choose (j + 1) : ℚ) * p ^ (j + 1) * q ^ (m - j) * g (j + 1)) m]
    simp only [Nat.choose_succ_self, Nat.cast_zero, zero_mul, add_zero, Nat.choose_zero_right,
      Nat.cast_one, one_mul, pow_zero, Nat.add_sub_add_right, Nat.sub_zero]
  rw [hB2]
  ring

/-- When the exercise style is not American, entry k of the option-value
array after m backward iterations is the m-step discounted binomial
expectation of the terminal payoffs starting at offset k; the asset-price
array plays no role. -/
theorem binomPass_euro_entry (u disc p : ℚ) (intrin : ℚ → ℚ) (steps : ℕ)
    (st : List ℚ × List ℚ) (f : ℕ → ℚ)
    (hf : ∀ j, j < steps + 1 → st.2.getD j 0 = f j) :
    ∀ m, m ≤ steps → ∀ k, k < steps + 1 - m →
      ((binomPass u disc p intrin false steps m st).2).getD k 0 =
        disc ^ m * ∑ j in Finset.range (m + 1),
          (m.choose j : ℚ) * p ^ j * (1 - p) ^ (m - j) * f (k + j) := by
  intro m
  induction m with
  | zero =>
      intro _ k hk
      rw [binomPass_zero, hf k (by omega)]
      simp
  | succ n ih =>
      intro hm k hk
      rw [binomPass_succ]
      have hstep : (binomStep u disc p intrin false (steps - (n + 1))
          (binomPass u disc p intrin false steps n st)).2 =
          binomCont disc p (steps - (n + 1)) (binomPass u disc p intrin false steps n st).2 := by
        simp [binomStep]
      rw [hstep, binomCont_getD _ _ _ _ _ (by omega : k < steps - (n + 1) + 1),
        ih (by omega) (k + 1) (by omega), ih (by omega) k (by omega)]
      have hshift : (∑ j in Finset.range (n + 1),
            (n.choose j : ℚ) * p ^ j * (1 - p) ^ (n - j) * f (k + 1 + j))
          = ∑ j in Finset.range (n + 1),
            (n.choose j : ℚ) * p ^ j * (1 - p) ^ (n - j) * f (k + (j + 1)) :=
        Finset.sum_congr rfl fun j _ => by rw [show k + 1 + j = k + (j + 1) by omega]
      rw [hshift]
      have hrec := binom_step_sum n p (1 - p) (fun t => f (k + t))
      simp only at hrec
      linear_combination (disc ^ n * disc) * hrec

/-- C10: for any option_type other than "American" (including "European" and
unsupported strings) the backward induction of `binomial_call` and
`binomial_put` returns exactly the one-shot discounted risk-neutral binomial
sum over the terminal payoffs, with e^(-rT) equal to the per-step discount
compounded steps times (the relation the real exponential satisfies, taken
as a hypothesis on the abstract primitives). -/
theorem binomial_euro_equals_closed_sum (P : Prims) (S K T r sigma : ℚ) (steps : ℕ)
    (option_type : String) (ht : option_type ≠ "American")
    (hS : 0 < S) (hK : 0 < K) (hT : 0 < T) (hsig : 0 < sigma) (hsteps : 1 ≤ steps)
    (hexp : P.exp (-(r * (T / (steps : ℚ)))) ^ steps = P.exp (-(r * T))) :
    binomial_call P S K T r sigma steps option_type = crrClosedCall P S K T r sigma steps ∧
    binomial_put P S K T r sigma steps option_type = crrClosedPut P S K T r sigma steps := by
  have hb : (option_type == "American") = false := beq_eq_false_iff_ne.mpr ht
  constructor
  · simp only [binomial_call, binomialCallState, hb, crrClosedCall]
    rw [binomPass_euro_entry _ _ _ _ steps _
        (fun j => max (S * P.exp (sigma * P.sqrt (T / (steps : ℚ))) ^ j *
          (1 / P.exp (sigma * P.sqrt (T / (steps : ℚ)))) ^ (steps - j) - K) 0)
        (fun j hj => by
          rw [List.map_map]
          rw [getD_range_map _ _ _ hj]
          simp [Function.comp])
        steps le_rfl 0 (by omega), hexp]
    simp only [Nat.zero_add]
  · simp only [binomial_put, binomialPutState, hb, crrClosedPut]
    rw [binomPass_euro_entry _ _ _ _ steps _
        (fun j => max (K - S * P.exp (sigma * P.sqrt (T / (steps : ℚ))) ^ j *
          (1 / P.exp (sigma * P.sqrt (T / (steps : ℚ)))) ^ (steps - j)) 0)
        (fun j hj => by
          rw [List.map_map]
          rw [getD_range_map _ _ _ hj]
          simp [Function.comp])
        steps le_rfl 0 (by omega), hexp]
    simp only [Nat.zero_add]

/-- Witness for C10 at option_type "Bermudan" with the constant
interpretation exp = 1 (so the compounding hypothesis holds: 1^2 = 1). -/
theorem binomial_euro_equals_closed_sum_witness :
    binomial_call P0 100 90 1 0 (1/5) 2 "Bermudan" = crrClosedCall P0 100 90 1 0 (1/5) 2 ∧
    binomial_put P0 100 90 1 0 (1/5) 2 "Bermudan" = crrClosedPut P0 100 90 1 0 (1/5) 2 :=
  binomial_euro_equals_closed_sum P0 100 90 1 0 (1/5) 2 "Bermudan" (by decide)
    (by norm_num) (by norm_num) (by norm_num) (by norm_num) (by norm_num)
    (by norm_num [P0])

end Opus
